import Mathlib

/-!
Verification of the product crawler (`crawler.py`).

The crawler is an asyncio program; asyncio is cooperative single-threaded
scheduling, and the visited-set test and insert in `crawl_url` happen with no
await point between them, so every run is equivalent to a sequential
interleaving in which each `crawl_url` body runs its test-and-insert
atomically.  We embed the program as a sequential state-passing recursion over
an explicit crawler state, with a fuel parameter standing in for the implicit
call stack (the Python source has no fuel; termination for finite link graphs
is proved as a theorem about sufficient fuel).

External collaborators (aiohttp transport, BeautifulSoup + urljoin link
resolution, urlparse host extraction) are modelled as oracles in an `Env`
record, exactly at the boundary where `crawler.py` calls them.  Everything
else is translated line by line from `src/crawler.py`.
-/

/-- Outcome of one HTTP GET attempt inside `fetch_html`'s try block
(`crawler.py` line 67): either the transport returns a response with a status
code and a body text, or some exception is raised (timeout, connection error,
or a failure while reading the body). -/
inductive AttemptResult where
  | resp (status : Nat) (body : String)
  | exc
deriving DecidableEq, Repr

/-- The `self.max_retries = 5` field set in `__init__` (line 15). -/
def max_retries : Nat := 5

/-- The crawler's shared mutable state: the fields of the `Crawler` object
(lines 14-19) that the claims are about.  `self.session` and `self.logger`
are not data (transport and logging are external side effects).
`visited_urls` and each `product_urls` entry are Python sets; we model them
as duplicate-free lists. -/
structure CState where
  failed_urls : Nat
  visited_urls : List String
  product_urls : List (String × List String)
  total_urls_crawled : Nat
deriving DecidableEq, Repr

/-- External collaborators, as oracles:
* `attempts url i` — outcome of the `i`-th GET attempt for `url`
  (the body of the try at line 67);
* `resolvedHrefs html base` — the list `urljoin(base, a['href'])` for the
  anchors BeautifulSoup finds in `html` (lines 44-48), in document order;
* `netloc url` — `urlparse(url).netloc` (line 40). -/
structure Env where
  attempts : String → Nat → AttemptResult
  resolvedHrefs : String → String → List String
  netloc : String → String

/-- Translation of `get_domain` (lines 38-40): delegate to `urlparse(...).netloc`. -/
def get_domain (env : Env) (url : String) : String :=
  env.netloc url

/-- Boolean test that a list starts with another list (used for the
`url.startswith(('http://', 'https://'))` check and for substring search). -/
def startsWithHttp (u : String) : Bool :=
  "http://".toList.isPrefixOf u.toList || "https://".toList.isPrefixOf u.toList

/-- Translation of `extract_urls` (lines 42-51): resolve every anchor href
against the base URL (external), keep those that start with `http://` or
`https://`, and collect them as a set (modelled: duplicate-free list). -/
def extract_urls (env : Env) (html base_url : String) : List String :=
  ((env.resolvedHrefs html base_url).filter (fun u => startsWithHttp u)).dedup

/-- The pattern list of `is_product_url` (lines 55-60).  None of the four
patterns contains a regex metacharacter, so `re.search(pattern, s)` is exactly
substring containment of `pattern` in `s`. -/
def patterns : List String := ["/product", "/products", "/collections", "/items"]

/-- Substring containment on character lists: `containsSub hay pat` is true
iff `pat` occurs contiguously inside `hay` (the meaning of
`re.search(pat, hay)` for a metacharacter-free `pat`). -/
def containsSub (hay pat : List Char) : Bool :=
  match hay with
  | [] => pat.isEmpty
  | c :: t => pat.isPrefixOf (c :: t) || containsSub t pat

/-- Python's `url.lower()`, modelled characterwise (`Char.toLower` on each
character; it agrees with `str.lower` on ASCII, and the patterns searched for
are all ASCII). -/
def lowerChars (url : String) : List Char :=
  url.toList.map Char.toLower

/-- Translation of `is_product_url` (lines 53-61):
`any(re.search(pattern, url.lower()) for pattern in patterns)`. -/
def is_product_url (url : String) : Bool :=
  patterns.any (fun pattern => containsSub (lowerChars url) pattern.toList)

/-- Translation of the retry loop of `fetch_html` (lines 65-77), iterating
over the attempt indices `range(self.max_retries)`.  The result is the
returned body (`none` both for a non-200 status, line 70, and for exhausted
retries, lines 75/77), the new value of `self.failed_urls`, and the list of
`asyncio.sleep(attempt+1)` delays performed (line 76). -/
def fetch_loop (attempts : Nat → AttemptResult) (mr failed : Nat) :
    List Nat → List Nat → Option String × Nat × List Nat
  | [], sleeps => (none, failed, sleeps)
  | attempt :: rest, sleeps =>
    match attempts attempt with
    | AttemptResult.resp status body =>
      if status = 200 then (some body, failed, sleeps)
      else (none, failed, sleeps)
    | AttemptResult.exc =>
      if attempt = mr - 1 then (none, failed + 1, sleeps)
      else fetch_loop attempts mr failed rest (sleeps ++ [attempt + 1])

/-- Translation of `fetch_html` (lines 63-77) for one URL, given the oracle of
its per-attempt outcomes and the current `self.failed_urls`. -/
def fetch_html (attempts : Nat → AttemptResult) (mr failed : Nat) :
    Option String × Nat × List Nat :=
  fetch_loop attempts mr failed (List.range mr) []

/-- Translation of `self.product_urls[domain].add(url)` (line 105) on the
defaultdict-of-sets, modelled as an association list in insertion order: the
entry for `domain` is created on first add (lazily, like `defaultdict`), and
`add` is idempotent (set semantics). -/
def addProduct (m : List (String × List String)) (domain url : String) :
    List (String × List String) :=
  match m with
  | [] => [(domain, [url])]
  | (d, us) :: rest =>
    if d = domain then (d, if url ∈ us then us else us ++ [url]) :: rest
    else (d, us) :: addProduct rest domain url

/-- Dictionary lookup in the association-list model of `product_urls`. -/
def lookupSet (m : List (String × List String)) (d : String) : Option (List String) :=
  match m with
  | [] => none
  | (k, v) :: rest => if k = d then some v else lookupSet rest d

/-- Membership of a recorded product URL: `u ∈ product_urls[d]`. -/
def InProd (m : List (String × List String)) (d u : String) : Prop :=
  ∃ us, (d, us) ∈ m ∧ u ∈ us

/-- Well-formedness of the `product_urls` dictionary model: keys are unique
(it is a dict) and every entry is nonempty (entries are created lazily, on the
first `add`). -/
def prodWF (m : List (String × List String)) : Prop :=
  (m.map Prod.fst).Nodup ∧ ∀ p ∈ m, p.2 ≠ []

/-- Lines 91-92 of `crawl_url`: add `url` to the visited set and bump
`self.total_urls_crawled` (this happens before the fetch). -/
def claimURL (url : String) (st : CState) : CState :=
  { st with visited_urls := url :: st.visited_urls,
            total_urls_crawled := st.total_urls_crawled + 1 }

/-- Line 99 of `crawl_url`: `html = await self.fetch_html(url)`, which may
mutate `self.failed_urls`. -/
def applyFetch (env : Env) (url : String) (st : CState) : Option String × CState :=
  let r := fetch_html (env.attempts url) max_retries st.failed_urls
  (r.1, { st with failed_urls := r.2.1 })

/-- Lines 104-105 of `crawl_url`: record `url` under `domain` when it
classifies as a product URL. -/
def recordProduct (url domain : String) (st : CState) : CState :=
  if is_product_url url then
    { st with product_urls := addProduct st.product_urls domain url }
  else st

/-- Lines 108-115 of `crawl_url`: extract the page's URLs, keep the
same-domain ones (`get_domain(url) == domain`), and subtract the current
visited set (the iteration set of the scheduling loop). -/
def childURLs (env : Env) (html base domain : String) (st : CState) : List String :=
  ((extract_urls env html base).filter (fun u => decide (get_domain env u = domain))).filter
    (fun u => decide (u ∉ st.visited_urls))

/-- Sequential processing of the child crawl tasks of one `crawl_url` frame
(the tasks created at line 119 and awaited by the `asyncio.gather` calls at
lines 117/122), threading the shared state and concatenating the fetch
traces. -/
def crawl_list (crawlF : String → CState → Option (CState × List String)) :
    List String → CState → Option (CState × List String)
  | [], st => some (st, [])
  | c :: rest, st =>
    (crawlF c st).bind (fun p =>
      (crawl_list crawlF rest p.1).map (fun q => (q.1, p.2 ++ q.2)))

/-- Translation of `crawl_url` (lines 79-122).  The second component of the
result is the trace of URLs for which `fetch_html` was invoked, in order.
`fuel` bounds the recursion depth (a modelling artifact: the source recurses
without bound; sufficient fuel is established by `crawl_termination`).
Python's `if not html` (line 100) is true both for `None` and for `""`. -/
def crawl_url (env : Env) : Nat → String → String → CState → Option (CState × List String)
  | 0, _, _, _ => none
  | Nat.succ f, url, domain, st =>
    if url ∈ st.visited_urls then some (st, [])
    else
      let fr := applyFetch env url (claimURL url st)
      match fr.1 with
      | none => some (fr.2, [url])
      | some html =>
        if html = "" then some (fr.2, [url])
        else
          let st3 := recordProduct url domain fr.2
          (crawl_list (fun u s => crawl_url env f u domain s)
              (childURLs env html url domain st3) st3).map
            (fun p => (p.1, url :: p.2))

/-- The batching of the child-scheduling loop (lines 112-122): `tasks` is the
current pending-task list; when its length exceeds 10 the batch is awaited
(`asyncio.gather`) and the list reset before the next task is appended; a
final nonempty batch is awaited after the loop.  The result is the list of
awaited batches, in order. -/
def schedule_batches : List String → List String → List (List String)
  | [], tasks => if tasks.isEmpty then [] else [tasks]
  | u :: rest, tasks =>
    if tasks.length > 10 then tasks :: schedule_batches rest [u]
    else schedule_batches rest (tasks ++ [u])

/-- The batches produced by one `crawl_url` frame's scheduling loop, starting
from the empty `tasks = []` list (line 113). -/
def child_batches (children : List String) : List (List String) :=
  schedule_batches children []

/-- The fresh `Crawler()` state built by `__init__` (lines 13-19). -/
def initState : CState :=
  { failed_urls := 0, visited_urls := [], product_urls := [], total_urls_crawled := 0 }

/-- The per-domain loop of `main` (lines 139-145): one top-level
`crawl_url(f'https://{domain}', domain)` task per seed domain, all sharing
the one `Crawler` state; `asyncio.gather` awaits them all. -/
def run_main (env : Env) (fuel : Nat) : List String → CState → Option (CState × List String)
  | [], st => some (st, [])
  | d :: rest, st =>
    (crawl_url env fuel ("https://" ++ d) d st).bind (fun p =>
      (run_main env fuel rest p.1).map (fun q => (q.1, p.2 ++ q.2)))

/-- The report written by `save_results` (lines 124-131): the JSON document
`{"products": {domain: list(urls), ...}, "failed_urls": n}`. -/
structure Report where
  products : List (String × List String)
  failed_urls : Nat
deriving DecidableEq, Repr

/-- Translation of `save_results` (lines 124-131): copy each domain's
recorded set into the products object (Python's `list(urls)`; the identity in
our list-valued set model) and attach the failure counter. -/
def save_results (st : CState) : Report :=
  { products := st.product_urls, failed_urls := st.failed_urls }

/-- Translation of `main` (lines 133-147): run every domain's crawl from a
fresh `Crawler()` state, then build the report with `save_results`.  (Named
`main_crawl` because Lean reserves `main` for executables.) -/
def main_crawl (env : Env) (fuel : Nat) (ds : List String) : Option (Report × List String) :=
  (run_main env fuel ds initState).map (fun p => (save_results p.1, p.2))

/-- The seed domain list of lines 150-160. -/
def domains : List String :=
  ["hyugalife.com", "thedermaco.com", "mamaearth.in", "themomsco.com",
   "mcaffeine.com", "dermatouch.com", "beminimalist.co", "plixlife.com",
   "discoverpilgrim.com"]

/-- Number of universe URLs not yet visited — the termination measure of the
crawl (the frontier can only shrink into this bound). -/
def countUnvisited (univ : List String) (st : CState) : Nat :=
  (univ.filter (fun u => decide (u ∉ st.visited_urls))).length

/-- The link graph reachable through the extractor stays inside the finite
URL universe `univ`. -/
def EnvClosed (env : Env) (univ : List String) : Prop :=
  ∀ html base u, u ∈ extract_urls env html base → u ∈ univ

/-- Scheduling-independent facts relating the state before and after a crawl
step and the trace `tr` of URLs it fetched. -/
structure CoreOK (st st' : CState) (tr : List String) : Prop where
  vis_mono : ∀ v ∈ st.visited_urls, v ∈ st'.visited_urls
  tr_fresh : ∀ v ∈ tr, v ∉ st.visited_urls ∧ v ∈ st'.visited_urls
  tr_nodup : tr.Nodup
  vis_sub : ∀ v ∈ st'.visited_urls, v ∈ st.visited_urls ∨ v ∈ tr
  wf_pres : prodWF st.product_urls → prodWF st'.product_urls

/-- Domain-scoped facts about a crawl step for domain `dom`: every fetched
URL has host `dom`, and every newly recorded product URL is a classified,
visited URL of host `dom` recorded under `dom`. -/
structure DomOK (env : Env) (dom : String) (st st' : CState) (tr : List String) : Prop where
  tr_dom : ∀ v ∈ tr, env.netloc v = dom
  prod_delta : ∀ d u, InProd st'.product_urls d u →
    InProd st.product_urls d u ∨
      (d = dom ∧ is_product_url u = true ∧ u ∈ st'.visited_urls ∧ env.netloc u = d)

/-- The record invariant of `product_urls`: every recorded URL classifies as
a product URL, has been visited, and has host equal to the domain it is
recorded under. -/
def ProdInv (env : Env) (st : CState) : Prop :=
  ∀ d u, InProd st.product_urls d u →
    is_product_url u = true ∧ u ∈ st.visited_urls ∧ env.netloc u = d

/-- Modelled from the spec: the path component of a URL.  URL parsing is the
standard library's `urlparse`, external to `src/`; the claim about
`is_product_url` speaks of "the URL's path", which per the spec's interface
description is the part after the host, up to the query or fragment.
`afterSub hay pat` returns the suffix of `hay` after the first occurrence of
`pat`. -/
def afterSub (hay pat : List Char) : Option (List Char) :=
  match hay with
  | [] => if pat.isEmpty then some [] else none
  | c :: t => if pat.isPrefixOf (c :: t) then some ((c :: t).drop pat.length)
              else afterSub t pat

/-- Modelled from the spec: `url_path url` — the path component of `url`
(after the scheme separator and host, before any query or fragment). -/
def url_path (url : String) : String :=
  let cs := url.toList
  let rest := match afterSub cs "://".toList with
    | some r => r
    | none => cs
  let tail := rest.dropWhile (fun c => c ≠ '/' && c ≠ '?' && c ≠ '#')
  let path := tail.takeWhile (fun c => c ≠ '?' && c ≠ '#')
  String.mk path


/-! ### Concrete environments used to exercise the theorems -/

/-- A two-page site on domain `x.com`: the root links a product page (and
itself, a cycle), the product page links back to the root. -/
def envA : Env :=
  { attempts := fun u _ =>
      if u = "https://x.com" then AttemptResult.resp 200 "A"
      else if u = "https://x.com/products/1" then AttemptResult.resp 200 "B"
      else AttemptResult.resp 200 "",
    resolvedHrefs := fun html _ =>
      if html = "A" then ["https://x.com/products/1", "https://x.com"]
      else if html = "B" then ["https://x.com"]
      else [],
    netloc := fun _ => "x.com" }

/-- The final crawler state of `envA`'s crawl from `https://x.com`. -/
def stA : CState :=
  { failed_urls := 0,
    visited_urls := ["https://x.com/products/1", "https://x.com"],
    product_urls := [("x.com", ["https://x.com/products/1"])],
    total_urls_crawled := 2 }

/-- The fetch trace of `envA`'s crawl from `https://x.com`. -/
def trA : List String := ["https://x.com", "https://x.com/products/1"]

/-- A state that has already visited the URL `u`. -/
def stVis : CState :=
  { failed_urls := 0, visited_urls := ["u"], product_urls := [],
    total_urls_crawled := 1 }

/-- A site whose every page links both universe pages — the link graph is a
complete graph with self-loops (so it certainly has cycles). -/
def envB : Env :=
  { attempts := fun _ _ => AttemptResult.resp 200 "H",
    resolvedHrefs := fun _ _ => ["https://x.com/a", "https://x.com/b"],
    netloc := fun _ => "x.com" }

/-- The URL universe of `envB`. -/
def univB : List String := ["https://x.com/a", "https://x.com/b"]

/-- Two seed domains; every fetch of `https://bad.com` raises a transport
error on every attempt, `good.com` answers with an empty body. -/
def envC : Env :=
  { attempts := fun u _ =>
      if u = "https://bad.com" then AttemptResult.exc
      else AttemptResult.resp 200 "",
    resolvedHrefs := fun _ _ => [],
    netloc := fun u => if u = "https://good.com" then "good.com" else "bad.com" }

/-- The URL universe of `envC`. -/
def univC : List String := ["https://good.com", "https://bad.com"]

/-- A transport that always answers HTTP 404. -/
def envD : Env :=
  { attempts := fun _ _ => AttemptResult.resp 404 "oops",
    resolvedHrefs := fun _ _ => [],
    netloc := fun _ => "x.com" }

/-! ### Substring search -/

lemma containsSub_iff (hay pat : List Char) :
    containsSub hay pat = true ↔ pat <:+: hay := by
  induction hay with
  | nil => simp [containsSub, List.infix_nil, List.isEmpty_iff]
  | cons c t ih =>
    simp [containsSub, List.infix_cons_iff, ih, List.isPrefixOf_iff_prefix]

/-! ### Batching of the child-scheduling loop -/

lemma schedule_batches_le (cs : List String) :
    ∀ tasks, tasks.length ≤ 11 → ∀ b ∈ schedule_batches cs tasks, b.length ≤ 11 := by
  induction cs with
  | nil =>
    intro tasks h b hb
    simp only [schedule_batches] at hb
    split at hb
    · cases hb
    · rw [List.mem_singleton] at hb
      exact hb ▸ h
  | cons u rest ih =>
    intro tasks h b hb
    simp only [schedule_batches] at hb
    split at hb
    · rcases List.mem_cons.mp hb with hb | hb
      · exact hb ▸ h
      · exact ih [u] (by simp) b hb
    · refine ih (tasks ++ [u]) ?_ b hb
      simp only [List.length_append, List.length_singleton]
      omega

lemma schedule_batches_join (cs : List String) :
    ∀ tasks, (schedule_batches cs tasks).flatten = tasks ++ cs := by
  induction cs with
  | nil =>
    intro tasks
    simp only [schedule_batches]
    split
    · next h => simp [List.isEmpty_iff.mp h]
    · simp
  | cons u rest ih =>
    intro tasks
    simp only [schedule_batches]
    split
    · simp [List.flatten, ih [u]]
    · simp [ih (tasks ++ [u])]

/-! ### The product dictionary -/

lemma addProduct_keys (m : List (String × List String)) (dom url : String) :
    (addProduct m dom url).map Prod.fst =
      if dom ∈ m.map Prod.fst then m.map Prod.fst else m.map Prod.fst ++ [dom] := by
  induction m with
  | nil => simp [addProduct]
  | cons p rest ih =>
    obtain ⟨d, us⟩ := p
    by_cases hd : d = dom
    · subst hd
      simp [addProduct]
    · by_cases hm : dom ∈ rest.map Prod.fst <;>
        simp [addProduct, hd, ih, hm, Ne.symm hd]

lemma addProduct_entries_ne (m : List (String × List String)) (dom url : String)
    (h : ∀ p ∈ m, p.2 ≠ []) : ∀ p ∈ addProduct m dom url, p.2 ≠ [] := by
  induction m with
  | nil =>
    intro p hp
    simp only [addProduct] at hp
    obtain rfl := List.mem_singleton.mp hp
    simp
  | cons q rest ih =>
    obtain ⟨d, us⟩ := q
    intro p hp
    simp only [addProduct] at hp
    by_cases hd : d = dom
    · rw [if_pos hd] at hp
      rcases List.mem_cons.mp hp with rfl | hp
      · dsimp only
        split
        · exact h (d, us) (List.mem_cons_self _ _)
        · simp
      · exact h p (List.mem_cons_of_mem _ hp)
    · rw [if_neg hd] at hp
      rcases List.mem_cons.mp hp with rfl | hp
      · exact h (d, us) (List.mem_cons_self _ _)
      · exact ih (fun r hr => h r (List.mem_cons_of_mem _ hr)) p hp

lemma addProduct_wf (m : List (String × List String)) (dom url : String)
    (h : prodWF m) : prodWF (addProduct m dom url) := by
  refine ⟨?_, addProduct_entries_ne m dom url h.2⟩
  rw [addProduct_keys]
  split
  · exact h.1
  · next hnot =>
    rw [List.nodup_append]
    exact ⟨h.1, List.nodup_singleton _, by simpa using fun hmem => hnot hmem⟩

lemma InProd_addProduct (m : List (String × List String)) (dom url d u : String)
    (h : InProd (addProduct m dom url) d u) :
    InProd m d u ∨ (d = dom ∧ u = url) := by
  induction m with
  | nil =>
    obtain ⟨us, hmem, hu⟩ := h
    simp only [addProduct] at hmem
    have e := List.mem_singleton.mp hmem
    injection e with h1 h2
    subst h2
    exact Or.inr ⟨h1, List.mem_singleton.mp hu⟩
  | cons q rest ih =>
    obtain ⟨dq, usq⟩ := q
    obtain ⟨us, hmem, hu⟩ := h
    simp only [addProduct] at hmem
    by_cases hd : dq = dom
    · rw [if_pos hd] at hmem
      rcases List.mem_cons.mp hmem with e | hmem
      · injection e with h1 h2
        rw [h2] at hu
        by_cases hin : url ∈ usq
        · rw [if_pos hin] at hu
          exact Or.inl ⟨usq, by rw [h1]; exact List.mem_cons_self _ _, hu⟩
        · rw [if_neg hin] at hu
          rcases List.mem_append.mp hu with hu | hu
          · exact Or.inl ⟨usq, by rw [h1]; exact List.mem_cons_self _ _, hu⟩
          · exact Or.inr ⟨h1.trans hd, List.mem_singleton.mp hu⟩
      · exact Or.inl ⟨us, List.mem_cons_of_mem _ hmem, hu⟩
    · rw [if_neg hd] at hmem
      rcases List.mem_cons.mp hmem with e | hmem
      · exact Or.inl ⟨us, by rw [e]; exact List.mem_cons_self _ _, hu⟩
      · rcases ih ⟨us, hmem, hu⟩ with hin | hr
        · obtain ⟨us', hmem', hu'⟩ := hin
          exact Or.inl ⟨us', List.mem_cons_of_mem _ hmem', hu'⟩
        · exact Or.inr hr

lemma lookupSet_isSome_of_mem (m : List (String × List String)) (d : String)
    (us : List String) (h : (d, us) ∈ m) : (lookupSet m d).isSome = true := by
  induction m with
  | nil => cases h
  | cons q rest ih =>
    obtain ⟨k, v⟩ := q
    by_cases hk : k = d
    · simp [lookupSet, hk]
    · rcases List.mem_cons.mp h with heq | hmem
      · cases heq
        exact absurd rfl hk
      · simpa [lookupSet, hk] using ih hmem

lemma lookupSet_mem (m : List (String × List String)) (d : String) (us : List String)
    (h : lookupSet m d = some us) : (d, us) ∈ m := by
  induction m with
  | nil => simp [lookupSet] at h
  | cons q rest ih =>
    obtain ⟨k, v⟩ := q
    simp only [lookupSet] at h
    by_cases hk : k = d
    · rw [if_pos hk] at h
      have hv := Option.some.inj h
      subst hk; subst hv
      exact List.mem_cons_self _ _
    · rw [if_neg hk] at h
      exact List.mem_cons_of_mem _ (ih h)

lemma lookup_isSome_iff_exists (m : List (String × List String)) (d : String)
    (hwf : prodWF m) : (lookupSet m d).isSome = true ↔ ∃ u, InProd m d u := by
  constructor
  · intro h
    cases hl : lookupSet m d with
    | none => rw [hl] at h; cases h
    | some us =>
      have hm := lookupSet_mem m d us hl
      have hne : us ≠ [] := hwf.2 (d, us) hm
      obtain ⟨u, hu⟩ := List.exists_mem_of_ne_nil us hne
      exact ⟨u, us, hm, hu⟩
  · rintro ⟨u, us, hm, _⟩
    exact lookupSet_isSome_of_mem m d us hm

/-! ### The termination measure -/

lemma length_filter_mono {α : Type} (p q : α → Bool) :
    ∀ l : List α, (∀ a ∈ l, p a = true → q a = true) →
      (l.filter p).length ≤ (l.filter q).length := by
  intro l
  induction l with
  | nil => intro _; exact Nat.le_refl 0
  | cons a t ih =>
    intro h
    have ht := ih (fun b hb hpb => h b (List.mem_cons_of_mem _ hb) hpb)
    rw [List.filter_cons, List.filter_cons]
    cases hpa : p a with
    | false =>
      cases hqa : q a
      · simpa using ht
      · simp only [Bool.false_eq_true, if_false, if_true, List.length_cons]
        simp
        omega
    | true =>
      have hqa : q a = true := h a (List.mem_cons_self _ _) hpa
      rw [hqa]
      simp only [if_true, List.length_cons]
      simp
      omega

lemma length_filter_lt {α : Type} (p q : α → Bool) (x : α) :
    ∀ l : List α, (∀ a ∈ l, p a = true → q a = true) →
      x ∈ l → p x = false → q x = true →
      (l.filter p).length < (l.filter q).length := by
  intro l
  induction l with
  | nil => intro _ hx; cases hx
  | cons a t ih =>
    intro h hx hpx hqx
    have ht : ∀ a ∈ t, p a = true → q a = true :=
      fun b hb hpb => h b (List.mem_cons_of_mem _ hb) hpb
    rw [List.filter_cons, List.filter_cons]
    rcases List.mem_cons.mp hx with rfl | hx'
    · rw [hpx, hqx]
      have hle := length_filter_mono p q t ht
      simp
      omega
    · cases hpa : p a with
      | false =>
        cases hqa : q a
        · simpa using ih ht hx' hpx hqx
        · have := ih ht hx' hpx hqx
          simp
          omega
      | true =>
        have hqa : q a = true := h a (List.mem_cons_self _ _) hpa
        rw [hqa]
        have := ih ht hx' hpx hqx
        simp
        omega

lemma countUnvisited_le (univ : List String) (st : CState) :
    countUnvisited univ st ≤ univ.length :=
  List.length_filter_le _ _

lemma countUnvisited_mono (univ : List String) (st st' : CState)
    (h : ∀ v ∈ st.visited_urls, v ∈ st'.visited_urls) :
    countUnvisited univ st' ≤ countUnvisited univ st := by
  refine length_filter_mono _ _ univ (fun a _ hd => ?_)
  have ha := of_decide_eq_true hd
  exact decide_eq_true (fun hmem => ha (h a hmem))

lemma countUnvisited_claim_lt (univ : List String) (st : CState) (url : String)
    (hu : url ∈ univ) (hv : url ∉ st.visited_urls) :
    countUnvisited univ (claimURL url st) < countUnvisited univ st := by
  refine length_filter_lt _ _ url univ (fun a _ hd => ?_) hu ?_ ?_
  · have ha := of_decide_eq_true hd
    exact decide_eq_true (fun hmem => ha (List.mem_cons_of_mem _ hmem))
  · exact decide_eq_false (by simp [claimURL])
  · exact decide_eq_true hv

/-! ### Small unfolding facts about the crawl steps -/

lemma applyFetch_visited (env : Env) (url : String) (st : CState) :
    ((applyFetch env url st).2).visited_urls = st.visited_urls := rfl

lemma applyFetch_products (env : Env) (url : String) (st : CState) :
    ((applyFetch env url st).2).product_urls = st.product_urls := rfl

lemma claimURL_visited (url : String) (st : CState) :
    (claimURL url st).visited_urls = url :: st.visited_urls := rfl

lemma claimURL_products (url : String) (st : CState) :
    (claimURL url st).product_urls = st.product_urls := rfl

lemma recordProduct_visited (url dom : String) (st : CState) :
    (recordProduct url dom st).visited_urls = st.visited_urls := by
  unfold recordProduct
  split <;> rfl

lemma childURLs_netloc (env : Env) (html base dom : String) (st : CState) :
    ∀ c ∈ childURLs env html base dom st, env.netloc c = dom := by
  intro c hc
  unfold childURLs at hc
  have hc1 := List.mem_filter.mp hc
  have hc2 := List.mem_filter.mp hc1.1
  exact of_decide_eq_true hc2.2

lemma childURLs_unvisited (env : Env) (html base dom : String) (st : CState) :
    ∀ c ∈ childURLs env html base dom st, c ∉ st.visited_urls := by
  intro c hc
  unfold childURLs at hc
  exact of_decide_eq_true (List.mem_filter.mp hc).2

lemma childURLs_extract (env : Env) (html base dom : String) (st : CState) :
    ∀ c ∈ childURLs env html base dom st, c ∈ extract_urls env html base := by
  intro c hc
  unfold childURLs at hc
  exact (List.mem_filter.mp (List.mem_filter.mp hc).1).1

/-! ### Composition algebra for crawl facts -/

lemma coreOK_nil (st : CState) : CoreOK st st [] :=
  ⟨fun _ hv => hv, fun v hv => absurd hv (List.not_mem_nil v), List.nodup_nil,
   fun _ hv => Or.inl hv, id⟩

lemma coreOK_trans {st1 st2 st3 : CState} {t1 t2 : List String}
    (h1 : CoreOK st1 st2 t1) (h2 : CoreOK st2 st3 t2) : CoreOK st1 st3 (t1 ++ t2) := by
  refine ⟨?_, ?_, ?_, ?_, ?_⟩
  · exact fun v hv => h2.vis_mono v (h1.vis_mono v hv)
  · intro v hv
    rcases List.mem_append.mp hv with hv | hv
    · exact ⟨(h1.tr_fresh v hv).1, h2.vis_mono v (h1.tr_fresh v hv).2⟩
    · exact ⟨fun hmem => (h2.tr_fresh v hv).1 (h1.vis_mono v hmem), (h2.tr_fresh v hv).2⟩
  · exact List.nodup_append.mpr ⟨h1.tr_nodup, h2.tr_nodup,
      fun v hv1 hv2 => (h2.tr_fresh v hv2).1 ((h1.tr_fresh v hv1).2)⟩
  · intro v hv
    rcases h2.vis_sub v hv with hv | hv
    · rcases h1.vis_sub v hv with hv | hv
      · exact Or.inl hv
      · exact Or.inr (List.mem_append.mpr (Or.inl hv))
    · exact Or.inr (List.mem_append.mpr (Or.inr hv))
  · exact fun hwf => h2.wf_pres (h1.wf_pres hwf)

lemma domOK_nil (env : Env) (dom : String) (st : CState) : DomOK env dom st st [] :=
  ⟨fun v hv => absurd hv (List.not_mem_nil v), fun _ _ h => Or.inl h⟩

lemma domOK_trans {env : Env} {dom : String} {st1 st2 st3 : CState} {t1 t2 : List String}
    (h1 : DomOK env dom st1 st2 t1) (h2 : DomOK env dom st2 st3 t2)
    (h2c : CoreOK st2 st3 t2) : DomOK env dom st1 st3 (t1 ++ t2) := by
  refine ⟨?_, ?_⟩
  · intro v hv
    rcases List.mem_append.mp hv with hv | hv
    · exact h1.tr_dom v hv
    · exact h2.tr_dom v hv
  · intro d u h
    rcases h2.prod_delta d u h with h | ⟨hd, hp, hvis, hnet⟩
    · rcases h1.prod_delta d u h with h | ⟨hd, hp, hvis, hnet⟩
      · exact Or.inl h
      · exact Or.inr ⟨hd, hp, h2c.vis_mono u hvis, hnet⟩
    · exact Or.inr ⟨hd, hp, hvis, hnet⟩

/-! ### The three atomic steps of one `crawl_url` frame -/

lemma claim_step (env : Env) (url : String) (st : CState) (hnot : url ∉ st.visited_urls) :
    CoreOK st (applyFetch env url (claimURL url st)).2 [url] := by
  refine ⟨?_, ?_, List.nodup_singleton url, ?_, ?_⟩
  · intro v hv
    rw [applyFetch_visited, claimURL_visited]
    exact List.mem_cons_of_mem _ hv
  · intro v hv
    obtain rfl := List.mem_singleton.mp hv
    refine ⟨hnot, ?_⟩
    rw [applyFetch_visited, claimURL_visited]
    exact List.mem_cons_self _ _
  · intro v hv
    rw [applyFetch_visited, claimURL_visited] at hv
    rcases List.mem_cons.mp hv with rfl | hv
    · exact Or.inr (List.mem_singleton_self _)
    · exact Or.inl hv
  · intro hwf
    rw [applyFetch_products, claimURL_products]
    exact hwf

lemma claim_step_dom (env : Env) (url dom : String) (st : CState)
    (hnet : env.netloc url = dom) :
    DomOK env dom st (applyFetch env url (claimURL url st)).2 [url] := by
  refine ⟨?_, ?_⟩
  · intro v hv
    obtain rfl := List.mem_singleton.mp hv
    exact hnet
  · intro d u h
    rw [applyFetch_products, claimURL_products] at h
    exact Or.inl h

lemma record_step_core (url dom : String) (st : CState) :
    CoreOK st (recordProduct url dom st) [] := by
  refine ⟨?_, ?_, List.nodup_nil, ?_, ?_⟩
  · intro v hv
    rw [recordProduct_visited]
    exact hv
  · intro v hv
    cases hv
  · intro v hv
    rw [recordProduct_visited] at hv
    exact Or.inl hv
  · intro hwf
    unfold recordProduct
    split
    · exact addProduct_wf _ _ _ hwf
    · exact hwf

lemma record_step_dom (env : Env) (url dom : String) (st : CState)
    (hvis : url ∈ st.visited_urls) (hnet : env.netloc url = dom) :
    DomOK env dom st (recordProduct url dom st) [] := by
  refine ⟨fun v hv => absurd hv (List.not_mem_nil v), ?_⟩
  intro d u h
  by_cases hp : is_product_url url = true
  · rw [show recordProduct url dom st =
        { st with product_urls := addProduct st.product_urls dom url } from by
      unfold recordProduct; rw [if_pos hp]] at h
    rcases InProd_addProduct st.product_urls dom url d u h with hin | ⟨hd, hu⟩
    · exact Or.inl hin
    · subst hd
      refine Or.inr ⟨rfl, ?_, ?_, ?_⟩
      · rw [hu]
        exact hp
      · rw [recordProduct_visited, hu]
        exact hvis
      · rw [hu]
        exact hnet
  · have hrec : recordProduct url dom st = st := by
      unfold recordProduct
      rw [if_neg hp]
    rw [hrec] at h
    exact Or.inl h

/-! ### Master soundness of the crawl recursion -/

lemma crawl_sound (env : Env) (dom : String) : ∀ fuel url st st' tr,
    crawl_url env fuel url dom st = some (st', tr) →
    CoreOK st st' tr ∧ (env.netloc url = dom → DomOK env dom st st' tr) := by
  intro fuel
  induction fuel with
  | zero =>
    intro url st st' tr h
    simp [crawl_url] at h
  | succ f ih =>
    have hlist : ∀ children st st' tr,
        crawl_list (fun u s => crawl_url env f u dom s) children st = some (st', tr) →
        CoreOK st st' tr ∧
          ((∀ c ∈ children, env.netloc c = dom) → DomOK env dom st st' tr) := by
      intro children
      induction children with
      | nil =>
        intro st st' tr h
        simp only [crawl_list, Option.some.injEq, Prod.mk.injEq] at h
        obtain ⟨h1, h2⟩ := h
        subst h1
        subst h2
        exact ⟨coreOK_nil _, fun _ => domOK_nil _ _ _⟩
      | cons c rest ihc =>
        intro st st' tr h
        simp only [crawl_list] at h
        rw [Option.bind_eq_some] at h
        obtain ⟨p, hp1, hp2⟩ := h
        obtain ⟨st1, t1⟩ := p
        rw [Option.map_eq_some'] at hp2
        obtain ⟨q, hq1, hq2⟩ := hp2
        obtain ⟨st2, t2⟩ := q
        simp only [Prod.mk.injEq] at hq2
        obtain ⟨h1, h2⟩ := hq2
        subst h1
        subst h2
        have A := ih c st st1 t1 hp1
        have B := ihc st1 st2 t2 hq1
        refine ⟨coreOK_trans A.1 B.1, fun hnet => ?_⟩
        exact domOK_trans (A.2 (hnet c (List.mem_cons_self _ _)))
          (B.2 (fun x hx => hnet x (List.mem_cons_of_mem _ hx))) B.1
    intro url st st' tr h
    simp only [crawl_url] at h
    by_cases hv : url ∈ st.visited_urls
    · rw [if_pos hv] at h
      simp only [Option.some.injEq, Prod.mk.injEq] at h
      obtain ⟨h1, h2⟩ := h
      subst h1
      subst h2
      exact ⟨coreOK_nil _, fun _ => domOK_nil _ _ _⟩
    · rw [if_neg hv] at h
      cases hb : (applyFetch env url (claimURL url st)).1 with
      | none =>
        simp only [hb, Option.some.injEq, Prod.mk.injEq] at h
        obtain ⟨h1, h2⟩ := h
        subst h1
        subst h2
        exact ⟨claim_step env url st hv, fun hnet => claim_step_dom env url dom st hnet⟩
      | some html =>
        simp only [hb] at h
        by_cases hh : html = ""
        · rw [if_pos hh] at h
          simp only [Option.some.injEq, Prod.mk.injEq] at h
          obtain ⟨h1, h2⟩ := h
          subst h1
          subst h2
          exact ⟨claim_step env url st hv, fun hnet => claim_step_dom env url dom st hnet⟩
        · rw [if_neg hh] at h
          rw [Option.map_eq_some'] at h
          obtain ⟨p, hp, hpe⟩ := h
          obtain ⟨st4, t2⟩ := p
          simp only [Prod.mk.injEq] at hpe
          obtain ⟨h1, h2⟩ := hpe
          subst h1
          subst h2
          have hl := hlist _ _ _ _ hp
          have c1 := claim_step env url st hv
          have c2 := record_step_core url dom (applyFetch env url (claimURL url st)).2
          have c3 := hl.1
          refine ⟨?_, ?_⟩
          · have := coreOK_trans (coreOK_trans c1 c2) c3
            simpa using this
          · intro hnet
            have d1 := claim_step_dom env url dom st hnet
            have d2 := record_step_dom env url dom (applyFetch env url (claimURL url st)).2
              (by rw [applyFetch_visited, claimURL_visited]; exact List.mem_cons_self _ _) hnet
            have d3 := hl.2 (childURLs_netloc env html url dom _)
            have := domOK_trans (domOK_trans d1 d2 (record_step_core url dom _)) d3 c3
            simpa using this

lemma crawl_list_sound (env : Env) (dom : String) (f : Nat) : ∀ children st st' tr,
    crawl_list (fun u s => crawl_url env f u dom s) children st = some (st', tr) →
    CoreOK st st' tr ∧
      ((∀ c ∈ children, env.netloc c = dom) → DomOK env dom st st' tr) := by
  intro children
  induction children with
  | nil =>
    intro st st' tr h
    simp only [crawl_list, Option.some.injEq, Prod.mk.injEq] at h
    obtain ⟨h1, h2⟩ := h
    subst h1
    subst h2
    exact ⟨coreOK_nil _, fun _ => domOK_nil _ _ _⟩
  | cons c rest ihc =>
    intro st st' tr h
    simp only [crawl_list] at h
    rw [Option.bind_eq_some] at h
    obtain ⟨p, hp1, hp2⟩ := h
    obtain ⟨st1, t1⟩ := p
    rw [Option.map_eq_some'] at hp2
    obtain ⟨q, hq1, hq2⟩ := hp2
    obtain ⟨st2, t2⟩ := q
    simp only [Prod.mk.injEq] at hq2
    obtain ⟨h1, h2⟩ := hq2
    subst h1
    subst h2
    have A := crawl_sound env dom f c st st1 t1 hp1
    have B := ihc st1 st2 t2 hq1
    refine ⟨coreOK_trans A.1 B.1, fun hnet => ?_⟩
    exact domOK_trans (A.2 (hnet c (List.mem_cons_self _ _)))
      (B.2 (fun x hx => hnet x (List.mem_cons_of_mem _ hx))) B.1

lemma crawl_url_visits (env : Env) (dom : String) :
    ∀ fuel url st st' tr, crawl_url env fuel url dom st = some (st', tr) →
      url ∈ st'.visited_urls := by
  intro fuel url st st' tr h
  cases fuel with
  | zero => simp [crawl_url] at h
  | succ f =>
    simp only [crawl_url] at h
    by_cases hv : url ∈ st.visited_urls
    · rw [if_pos hv] at h
      simp only [Option.some.injEq, Prod.mk.injEq] at h
      obtain ⟨h1, _⟩ := h
      subst h1
      exact hv
    · rw [if_neg hv] at h
      cases hb : (applyFetch env url (claimURL url st)).1 with
      | none =>
        simp only [hb, Option.some.injEq, Prod.mk.injEq] at h
        obtain ⟨h1, _⟩ := h
        subst h1
        rw [applyFetch_visited, claimURL_visited]
        exact List.mem_cons_self _ _
      | some html =>
        simp only [hb] at h
        by_cases hh : html = ""
        · rw [if_pos hh] at h
          simp only [Option.some.injEq, Prod.mk.injEq] at h
          obtain ⟨h1, _⟩ := h
          subst h1
          rw [applyFetch_visited, claimURL_visited]
          exact List.mem_cons_self _ _
        · rw [if_neg hh] at h
          rw [Option.map_eq_some'] at h
          obtain ⟨p, hp, hpe⟩ := h
          obtain ⟨st4, t2⟩ := p
          simp only [Prod.mk.injEq] at hpe
          obtain ⟨h1, _⟩ := hpe
          subst h1
          have hl := (crawl_list_sound env dom f _ _ _ _ hp).1
          refine hl.vis_mono url ?_
          rw [recordProduct_visited, applyFetch_visited, claimURL_visited]
          exact List.mem_cons_self _ _

/-! ### Totality: enough fuel always yields a result -/

lemma crawl_list_total (env : Env) (dom : String) (univ : List String) (f : Nat)
    (hF : ∀ url st, url ∈ univ → countUnvisited univ st < f →
      (crawl_url env f url dom st).isSome = true) :
    ∀ children st, (∀ c ∈ children, c ∈ univ) → countUnvisited univ st < f →
      (crawl_list (fun u s => crawl_url env f u dom s) children st).isSome = true := by
  intro children
  induction children with
  | nil =>
    intro st _ _
    simp [crawl_list]
  | cons c rest ihc =>
    intro st hch hcnt
    have h1 := hF c st (hch c (List.mem_cons_self _ _)) hcnt
    cases hc1 : crawl_url env f c dom st with
    | none => rw [hc1] at h1; cases h1
    | some p =>
      obtain ⟨st1, t1⟩ := p
      have hcore := (crawl_sound env dom f c st st1 t1 hc1).1
      have hcnt1 : countUnvisited univ st1 ≤ countUnvisited univ st :=
        countUnvisited_mono univ st st1 hcore.vis_mono
      have h2 := ihc st1 (fun x hx => hch x (List.mem_cons_of_mem _ hx))
        (lt_of_le_of_lt hcnt1 hcnt)
      cases hc2 : crawl_list (fun u s => crawl_url env f u dom s) rest st1 with
      | none => rw [hc2] at h2; cases h2
      | some q =>
        simp [crawl_list, hc1, hc2]

lemma crawl_total (env : Env) (dom : String) (univ : List String)
    (hc : EnvClosed env univ) :
    ∀ fuel url st, url ∈ univ → countUnvisited univ st < fuel →
      (crawl_url env fuel url dom st).isSome = true := by
  intro fuel
  induction fuel with
  | zero =>
    intro url st _ hcnt
    exact absurd hcnt (Nat.not_lt_zero _)
  | succ f ih =>
    intro url st hu hcnt
    simp only [crawl_url]
    by_cases hv : url ∈ st.visited_urls
    · rw [if_pos hv]
      rfl
    · rw [if_neg hv]
      split
      · rfl
      · next html hb =>
        by_cases hh : html = ""
        · rw [if_pos hh]
          rfl
        · rw [if_neg hh]
          have heq : countUnvisited univ
              (recordProduct url dom (applyFetch env url (claimURL url st)).2) =
              countUnvisited univ (claimURL url st) := by
            unfold countUnvisited
            rw [recordProduct_visited, applyFetch_visited]
          have hlt : countUnvisited univ
              (recordProduct url dom (applyFetch env url (claimURL url st)).2) < f := by
            have h1 := countUnvisited_claim_lt univ st url hu hv
            omega
          have hch : ∀ c ∈ childURLs env html url dom
              (recordProduct url dom (applyFetch env url (claimURL url st)).2), c ∈ univ :=
            fun c hcmem => hc html url c (childURLs_extract env html url dom _ c hcmem)
          have htot := crawl_list_total env dom univ f ih _ _ hch hlt
          cases hl : crawl_list (fun u s => crawl_url env f u dom s)
              (childURLs env html url dom
                (recordProduct url dom (applyFetch env url (claimURL url st)).2))
              (recordProduct url dom (applyFetch env url (claimURL url st)).2) with
          | none => rw [hl] at htot; cases htot
          | some q => rfl

/-! ### The orchestrator loop -/

lemma run_main_core (env : Env) : ∀ ds fuel st st' tr,
    run_main env fuel ds st = some (st', tr) → CoreOK st st' tr := by
  intro ds
  induction ds with
  | nil =>
    intro fuel st st' tr h
    simp only [run_main, Option.some.injEq, Prod.mk.injEq] at h
    obtain ⟨h1, h2⟩ := h
    subst h1
    subst h2
    exact coreOK_nil _
  | cons d rest ih =>
    intro fuel st st' tr h
    simp only [run_main] at h
    rw [Option.bind_eq_some] at h
    obtain ⟨p, hp1, hp2⟩ := h
    obtain ⟨st1, t1⟩ := p
    rw [Option.map_eq_some'] at hp2
    obtain ⟨q, hq1, hq2⟩ := hp2
    obtain ⟨st2, t2⟩ := q
    simp only [Prod.mk.injEq] at hq2
    obtain ⟨h1, h2⟩ := hq2
    subst h1
    subst h2
    exact coreOK_trans (crawl_sound env d fuel _ st st1 t1 hp1).1 (ih fuel st1 st2 t2 hq1)

lemma run_main_visits (env : Env) : ∀ ds fuel st st' tr,
    run_main env fuel ds st = some (st', tr) →
    ∀ d ∈ ds, ("https://" ++ d) ∈ st'.visited_urls := by
  intro ds
  induction ds with
  | nil =>
    intro fuel st st' tr _ d hd
    cases hd
  | cons d0 rest ih =>
    intro fuel st st' tr h d hd
    simp only [run_main] at h
    rw [Option.bind_eq_some] at h
    obtain ⟨p, hp1, hp2⟩ := h
    obtain ⟨st1, t1⟩ := p
    rw [Option.map_eq_some'] at hp2
    obtain ⟨q, hq1, hq2⟩ := hp2
    obtain ⟨st2, t2⟩ := q
    simp only [Prod.mk.injEq] at hq2
    obtain ⟨h1, h2⟩ := hq2
    subst h1
    subst h2
    rcases List.mem_cons.mp hd with rfl | hd
    · have h1 := crawl_url_visits env d fuel _ st st1 t1 hp1
      exact (run_main_core env rest fuel st1 st2 t2 hq1).vis_mono _ h1
    · exact ih fuel st1 st2 t2 hq1 d hd

lemma run_main_total (env : Env) (univ : List String) (hc : EnvClosed env univ) :
    ∀ ds st, (∀ d ∈ ds, ("https://" ++ d) ∈ univ) →
      (run_main env (univ.length + 1) ds st).isSome = true := by
  intro ds
  induction ds with
  | nil =>
    intro st _
    simp [run_main]
  | cons d rest ih =>
    intro st hds
    have hcnt : countUnvisited univ st < univ.length + 1 :=
      Nat.lt_succ_of_le (countUnvisited_le univ st)
    have h1 := crawl_total env d univ hc (univ.length + 1) ("https://" ++ d) st
      (hds d (List.mem_cons_self _ _)) hcnt
    cases hc1 : crawl_url env (univ.length + 1) ("https://" ++ d) d st with
    | none => rw [hc1] at h1; cases h1
    | some p =>
      obtain ⟨st1, t1⟩ := p
      have h2 := ih st1 (fun x hx => hds x (List.mem_cons_of_mem _ hx))
      cases hc2 : run_main env (univ.length + 1) rest st1 with
      | none => rw [hc2] at h2; cases h2
      | some q =>
        simp [run_main, hc1, hc2]

/-! ## The claims -/

/-- C1: Idempotent visitation.  Across an entire run (`run_main`), the trace
of URLs for which `fetch_html` is invoked has no duplicates — every URL is
fetched at most once — and `crawl_url` on a URL already in the visited set
returns immediately as a no-op (state unchanged, nothing fetched), because
the visited-set test and insert happen before the fetch. -/
theorem idempotent_visitation :
    (∀ env fuel ds st st' tr, run_main env fuel ds st = some (st', tr) →
        tr.Nodup ∧ ∀ v ∈ tr, v ∉ st.visited_urls)
    ∧ (∀ env fuel url dom st, url ∈ st.visited_urls →
        crawl_url env (fuel + 1) url dom st = some (st, [])) := by
  constructor
  · intro env fuel ds st st' tr h
    have hc := run_main_core env ds fuel st st' tr h
    exact ⟨hc.tr_nodup, fun v hv => (hc.tr_fresh v hv).1⟩
  · intro env fuel url dom st h
    simp [crawl_url, h]

/-- C1, exercised: the concrete crawl of `envA` (whose pages link each other
in a cycle) fetches each URL once, and a visited URL is a no-op. -/
theorem idempotent_visitation_witness :
    trA.Nodup
    ∧ "https://x.com" ∉ initState.visited_urls
    ∧ crawl_url envA (0 + 1) "u" "x.com" stVis = some (stVis, []) := by
  have h := idempotent_visitation.1 envA 3 ["x.com"] initState stA trA (by decide)
  exact ⟨h.1, h.2 "https://x.com" (by decide),
    idempotent_visitation.2 envA 0 "u" "x.com" stVis (by decide)⟩

/-- C2: Termination.  If the extractor's output always stays inside a finite
URL universe, then the crawl from any seed in the universe succeeds with
finite fuel (one more than the number of unvisited universe URLs): the
recursion terminates even on cyclic link graphs, because each claimed URL
shrinks the unvisited set. -/
theorem crawl_termination (env : Env) (univ : List String) (dom seed : String)
    (st : CState) (hclosed : EnvClosed env univ) (hseed : seed ∈ univ) :
    ∃ st' tr, crawl_url env (countUnvisited univ st + 1) seed dom st = some (st', tr) := by
  have h := crawl_total env dom univ hclosed (countUnvisited univ st + 1) seed st hseed
    (Nat.lt_succ_self _)
  cases hr : crawl_url env (countUnvisited univ st + 1) seed dom st with
  | none => rw [hr] at h; cases h
  | some p => exact ⟨p.1, p.2, rfl⟩

/-- C2, exercised on `envB`, whose two pages link each other and themselves
(a cyclic graph). -/
theorem crawl_termination_witness :
    ∃ st' tr, crawl_url envB (countUnvisited univB initState + 1) "https://x.com/a"
      "x.com" initState = some (st', tr) := by
  refine crawl_termination envB univB "x.com" "https://x.com/a" initState ?_ (by decide)
  intro html base u hu
  have he : extract_urls envB html base = ["https://x.com/a", "https://x.com/b"] := rfl
  rw [he] at hu
  exact hu

/-- C3: Retry with linear backoff, and exactly-once failure counting.
`fetch_html` tries up to `max_retries = 5` attempts.  If the first `k < 5`
attempts raise transport errors and attempt `k` returns HTTP 200, the body is
returned, `failed_urls` is unchanged, and the sleeps performed are
`attempt_index + 1` time units after each failed non-final attempt
(`[1, ..., k]`).  If all 5 attempts raise, `failed_urls` is incremented
exactly once and no body is returned (with sleeps `[1, 2, 3, 4]`). -/
theorem fetch_retry_backoff (att : Nat → AttemptResult) (failed k : Nat) (body : String) :
    ((∀ i, i < k → att i = AttemptResult.exc) → k < max_retries →
        att k = AttemptResult.resp 200 body →
        fetch_html att max_retries failed =
          (some body, failed, (List.range k).map (fun i => i + 1)))
    ∧ ((∀ i, i < max_retries → att i = AttemptResult.exc) →
        fetch_html att max_retries failed =
          (none, failed + 1, (List.range (max_retries - 1)).map (fun i => i + 1))) := by
  constructor
  · intro hpre hk hsucc
    have hk5 : k < 5 := hk
    unfold fetch_html
    rw [show List.range max_retries = [0, 1, 2, 3, 4] from rfl]
    interval_cases k
    · simp [fetch_loop, hsucc]
    · have h0 := hpre 0 (by omega)
      simp [fetch_loop, max_retries, h0, hsucc]
      rfl
    · have h0 := hpre 0 (by omega)
      have h1 := hpre 1 (by omega)
      simp [fetch_loop, max_retries, h0, h1, hsucc]
      rfl
    · have h0 := hpre 0 (by omega)
      have h1 := hpre 1 (by omega)
      have h2 := hpre 2 (by omega)
      simp [fetch_loop, max_retries, h0, h1, h2, hsucc]
      rfl
    · have h0 := hpre 0 (by omega)
      have h1 := hpre 1 (by omega)
      have h2 := hpre 2 (by omega)
      have h3 := hpre 3 (by omega)
      simp [fetch_loop, max_retries, h0, h1, h2, h3, hsucc]
      rfl
  · intro hall
    have h0 := hall 0 (by decide)
    have h1 := hall 1 (by decide)
    have h2 := hall 2 (by decide)
    have h3 := hall 3 (by decide)
    have h4 := hall 4 (by decide)
    unfold fetch_html
    rw [show List.range max_retries = [0, 1, 2, 3, 4] from rfl]
    simp [fetch_loop, max_retries, h0, h1, h2, h3, h4]
    rfl

/-- C3, exercised: two transport errors then a success return the body with
sleeps `[1, 2]` and no failure count; five transport errors count one
failure. -/
theorem fetch_retry_backoff_witness :
    fetch_html (fun i => if i < 2 then AttemptResult.exc else AttemptResult.resp 200 "ok")
      max_retries 0 = (some "ok", 0, (List.range 2).map (fun i => i + 1))
    ∧ fetch_html (fun _ => AttemptResult.exc) max_retries 7 =
      (none, 7 + 1, (List.range (max_retries - 1)).map (fun i => i + 1)) := by
  constructor
  · exact (fetch_retry_backoff
      (fun i => if i < 2 then AttemptResult.exc else AttemptResult.resp 200 "ok") 0 2 "ok").1
      (fun i hi => if_pos hi) (by decide) (by decide)
  · exact (fetch_retry_backoff (fun _ => AttemptResult.exc) 7 0 "x").2 (fun _ _ => rfl)

/-- C4 counterexample: the claim says `is_product_url` matches the patterns
against the URL's path, but the code searches the whole lowercased URL
string.  At `https://x.com/about?q=/items` the path is `/about`, which no
pattern matches, yet `is_product_url` returns true (the pattern `/items`
occurs in the query string). -/
theorem is_product_url_path_mismatch :
    is_product_url "https://x.com/about?q=/items" = true
    ∧ url_path "https://x.com/about?q=/items" = "/about"
    ∧ patterns.any (fun p =>
        containsSub (lowerChars (url_path "https://x.com/about?q=/items")) p.toList)
      = false :=
  ⟨by decide, by decide, by decide⟩

/-- C4 (amended): `is_product_url` is a pure, case-insensitive match of the
URL's entire lowercased string (not only its path) against the fixed pattern
list, returning true iff some pattern occurs as a substring; the three
concrete examples of the claim hold. -/
theorem is_product_url_matches_whole_url :
    (∀ url : String, is_product_url url = true ↔
        ∃ p ∈ patterns, List.IsInfix p.toList (lowerChars url))
    ∧ is_product_url "https://x.com/products/123" = true
    ∧ is_product_url "https://x.com/about" = false
    ∧ is_product_url "https://x.com/PRODUCTS/1" = true := by
  refine ⟨fun url => ?_, by decide, by decide, by decide⟩
  simp only [is_product_url, List.any_eq_true]
  exact exists_congr fun p => and_congr_right fun _ => containsSub_iff _ _

/-- C5: Domain containment.  If the URL given to `crawl_url` has host `dom`,
then every URL it ever fetches has host exactly `dom` (children are filtered
by `get_domain(url) == domain` before a task is created). -/
theorem domain_containment (env : Env) (fuel : Nat) (url dom : String) (st st' : CState)
    (tr : List String) (h : crawl_url env fuel url dom st = some (st', tr))
    (hu : env.netloc url = dom) : ∀ v ∈ tr, env.netloc v = dom :=
  fun v hv => ((crawl_sound env dom fuel url st st' tr h).2 hu).tr_dom v hv

/-- C5, exercised on `envA`'s crawl. -/
theorem domain_containment_witness : envA.netloc "https://x.com/products/1" = "x.com" :=
  domain_containment envA 3 "https://x.com" "x.com" initState stA trA (by decide) rfl
    "https://x.com/products/1" (by decide)

/-- C6: Non-success status handling.  If the first attempt returns an HTTP
status other than 200 (no exception), `fetch_html` returns no content
immediately: no retry is consumed, no sleep happens, and `failed_urls` is
unchanged; `crawl_url` then prunes the branch — the URL is only marked
visited and counted, nothing is recorded and no children are crawled. -/
theorem non_success_status (env : Env) (fuel : Nat) (url dom : String) (st : CState)
    (c : Nat) (body : String) (hatt : env.attempts url 0 = AttemptResult.resp c body)
    (hc : c ≠ 200) :
    fetch_html (env.attempts url) max_retries st.failed_urls = (none, st.failed_urls, [])
    ∧ (url ∉ st.visited_urls →
        crawl_url env (fuel + 1) url dom st = some (claimURL url st, [url])) := by
  have hf : fetch_html (env.attempts url) max_retries st.failed_urls
      = (none, st.failed_urls, []) := by
    unfold fetch_html
    rw [show List.range max_retries = [0, 1, 2, 3, 4] from rfl]
    simp [fetch_loop, hatt, hc]
  refine ⟨hf, fun hv => ?_⟩
  have hfr : applyFetch env url (claimURL url st) = (none, claimURL url st) := by
    unfold applyFetch
    rw [show (claimURL url st).failed_urls = st.failed_urls from rfl, hf]
    rfl
  simp only [crawl_url]
  rw [if_neg hv]
  simp only [hfr]

/-- C6, exercised: a transport answering 404 on `envD`. -/
theorem non_success_status_witness :
    fetch_html (envD.attempts "https://x.com/a") max_retries initState.failed_urls
      = (none, initState.failed_urls, [])
    ∧ crawl_url envD (0 + 1) "https://x.com/a" "x.com" initState
      = some (claimURL "https://x.com/a" initState, ["https://x.com/a"]) := by
  have h := non_success_status envD 0 "https://x.com/a" "x.com" initState 404 "oops" rfl
    (by decide)
  exact ⟨h.1, h.2 (by decide)⟩

/-- C7: Report shape.  For any state produced by a run from the initial
crawler state, `save_results` yields the document
`{"products": {domain: [urls], ...}, "failed_urls": n}` where `failed_urls`
equals the failure counter, the products object has unique keys, a domain is
present exactly when at least one product URL was recorded for it (entries
are created lazily), and each domain's list contains exactly the recorded
URLs. -/
theorem report_shape (env : Env) (fuel : Nat) (ds : List String) (st : CState)
    (tr : List String) (h : run_main env fuel ds initState = some (st, tr)) :
    (save_results st).failed_urls = st.failed_urls
    ∧ ((save_results st).products.map Prod.fst).Nodup
    ∧ (∀ d, (lookupSet (save_results st).products d).isSome = true ↔
        ∃ u, InProd st.product_urls d u)
    ∧ (∀ d u, InProd (save_results st).products d u ↔ InProd st.product_urls d u) := by
  have hwf : prodWF st.product_urls :=
    (run_main_core env ds fuel initState st tr h).wf_pres
      ⟨List.nodup_nil, fun p hp => absurd hp (List.not_mem_nil p)⟩
  exact ⟨rfl, hwf.1, fun d => lookup_isSome_iff_exists st.product_urls d hwf,
    fun d u => Iff.rfl⟩

/-- C7, exercised on `envA`'s run: `x.com` is present (one product URL was
recorded); a never-recorded domain is absent. -/
theorem report_shape_witness :
    (save_results stA).failed_urls = stA.failed_urls
    ∧ ((save_results stA).products.map Prod.fst).Nodup
    ∧ ((lookupSet (save_results stA).products "x.com").isSome = true ↔
        ∃ u, InProd stA.product_urls "x.com" u)
    ∧ (InProd (save_results stA).products "x.com" "https://x.com/products/1" ↔
        InProd stA.product_urls "x.com" "https://x.com/products/1") := by
  have h := report_shape envA 3 ["x.com"] stA trA (by decide)
  exact ⟨h.1, h.2.1, h.2.2.1 "x.com", h.2.2.2 "x.com" "https://x.com/products/1"⟩

/-- C8: Failure isolation.  Even when some seed domain's fetches raise on
every attempt (a terminally failing seed), the whole run still completes and
produces the report, and every seed domain's crawl ran: each seed URL appears
in the run's fetch trace. -/
theorem failure_isolation (env : Env) (univ : List String) (ds : List String)
    (dBad : String) (hclosed : EnvClosed env univ)
    (hseeds : ∀ d ∈ ds, ("https://" ++ d) ∈ univ) (_hbad : dBad ∈ ds)
    (_hfail : ∀ i, env.attempts ("https://" ++ dBad) i = AttemptResult.exc) :
    ∃ rep tr, main_crawl env (univ.length + 1) ds = some (rep, tr)
      ∧ ∀ d ∈ ds, ("https://" ++ d) ∈ tr := by
  have htot := run_main_total env univ hclosed ds initState hseeds
  cases hr : run_main env (univ.length + 1) ds initState with
  | none => rw [hr] at htot; cases htot
  | some p =>
    obtain ⟨st, tr⟩ := p
    refine ⟨save_results st, tr, ?_, ?_⟩
    · simp [main_crawl, hr]
    · intro d hd
      have hvis := run_main_visits env ds (univ.length + 1) initState st tr hr d hd
      rcases (run_main_core env ds (univ.length + 1) initState st tr hr).vis_sub _ hvis with
        hin | hin
      · exact absurd hin (List.not_mem_nil _)
      · exact hin

/-- C8, exercised: `bad.com`'s seed always raises; the run still completes
and both seeds were fetched. -/
theorem failure_isolation_witness :
    ∃ rep tr, main_crawl envC (univC.length + 1) ["good.com", "bad.com"] = some (rep, tr)
      ∧ ("https://" ++ "good.com") ∈ tr ∧ ("https://" ++ "bad.com") ∈ tr := by
  have hclosed : EnvClosed envC univC := by
    intro html base u hu
    have he : extract_urls envC html base = [] := rfl
    rw [he] at hu
    exact absurd hu (List.not_mem_nil _)
  obtain ⟨rep, tr, h1, h2⟩ := failure_isolation envC univC ["good.com", "bad.com"]
    "bad.com" hclosed (by decide) (by decide) (fun i => rfl)
  exact ⟨rep, tr, h1, h2 "good.com" (by decide), h2 "bad.com" (by decide)⟩

/-- C9: Per-frame concurrency bound.  The child-scheduling loop of one
`crawl_url` frame awaits its pending tasks in batches; every batch it ever
gathers (equivalently, the pending-task list at any await point) has at most
11 elements, because the list is flushed as soon as its length exceeds 10. -/
theorem child_batch_bound (children : List String) (b : List String)
    (hb : b ∈ child_batches children) : b.length ≤ 11 :=
  schedule_batches_le children [] (by simp) b hb

/-- C9, exercised on a two-child frame. -/
theorem child_batch_bound_witness : (["u1", "u2"] : List String).length ≤ 11 :=
  child_batch_bound ["u1", "u2"] ["u1", "u2"] (by decide)

/-- C10: ProductURLs record invariant.  The invariant "every recorded product
URL classifies as a product URL, is in the visited set, and has host equal to
the domain it is recorded under" is preserved by every `crawl_url` operation
whose URL has the claimed host (the seed `https://d` or a same-domain
filtered child). -/
theorem product_record_invariant (env : Env) (fuel : Nat) (url dom : String)
    (st st' : CState) (tr : List String)
    (h : crawl_url env fuel url dom st = some (st', tr))
    (hnet : env.netloc url = dom) (hinv : ProdInv env st) : ProdInv env st' := by
  intro d u hin
  obtain ⟨core, hdom⟩ := crawl_sound env dom fuel url st st' tr h
  rcases (hdom hnet).prod_delta d u hin with hold | ⟨hd, hp, hvis, hn⟩
  · obtain ⟨h1, h2, h3⟩ := hinv d u hold
    exact ⟨h1, core.vis_mono u h2, h3⟩
  · exact ⟨hp, hvis, hn⟩

/-- C10, exercised: the invariant holds for the final state of `envA`'s
crawl, starting from the trivially-invariant initial state. -/
theorem product_record_invariant_witness : ProdInv envA stA :=
  product_record_invariant envA 3 "https://x.com" "x.com" initState stA trA (by decide)
    rfl (by rintro d u ⟨us, hmem, _⟩; exact absurd hmem (List.not_mem_nil _))
